import Mathlib

/-!
Verification of the kakapo terminal chat client (Go) against its
natural-language specification.  The development shallowly embeds the
program's pure core: the word-wrapping routine used before rendering
(`WrapString`, from the go-wordwrap library invoked at src/main.go:146),
the layout arithmetic of `initialModel` (both the current src/main.go
variant and the older variant), the input-widget configuration, and the
`Update` event step.  Stateful effects on the two viewports and the
blocking model call are made explicit as an ordered effect trace; the
fallible backend call is an `Option String` oracle passed to the step.
-/

/-- Space test used by the wrapper: models Go's unicode.IsSpace over the
Latin-1 range plus NEL, with the exception the library makes for the
non-breaking space U+00A0, which it treats as a word character.  (The
full Unicode White_Space table beyond Latin-1 is omitted; no claim
exercises those characters.) -/
def isBreakSpace (c : Char) : Bool :=
  c == ' ' || c == '\t' || c == '\n' || c == '\x0b' || c == '\x0c' || c == '\r' || c == '\x85'

/-- Mutable state of go-wordwrap's WrapString loop: the output buffer, the
rune length of the current output line, and the pending space and word
buffers (their Go rune-length counters equal the list lengths here). -/
structure WrapState where
  buf : List Char
  current : Nat
  spaceBuf : List Char
  wordBuf : List Char
deriving DecidableEq, Repr

/-- One iteration of go-wordwrap's WrapString loop on a single rune,
translated branch for branch: the newline case (flushing or dropping
pending spaces, flushing a pending word), the space case (flushing the
pending word), and the word case (breaking the line when the limit is
exceeded and the pending word is still shorter than the limit). -/
def wrapStep (lim : Nat) (st : WrapState) (c : Char) : WrapState :=
  if c = '\n' then
    if st.wordBuf = [] then
      if lim < st.current + st.spaceBuf.length then
        { st with buf := st.buf ++ ['\n'], current := 0, spaceBuf := [] }
      else
        { st with buf := st.buf ++ st.spaceBuf ++ ['\n'], current := 0, spaceBuf := [] }
    else
      { buf := st.buf ++ st.spaceBuf ++ st.wordBuf ++ ['\n'],
        current := 0, spaceBuf := [], wordBuf := [] }
  else if isBreakSpace c then
    if st.spaceBuf = [] ∨ st.wordBuf ≠ [] then
      { buf := st.buf ++ st.spaceBuf ++ st.wordBuf,
        current := st.current + st.spaceBuf.length + st.wordBuf.length,
        spaceBuf := [c], wordBuf := [] }
    else
      { st with spaceBuf := st.spaceBuf ++ [c] }
  else
    if lim < st.current + (st.wordBuf.length + 1) + st.spaceBuf.length
        ∧ st.wordBuf.length + 1 < lim then
      { st with buf := st.buf ++ ['\n'], current := 0, spaceBuf := [],
                wordBuf := st.wordBuf ++ [c] }
    else
      { st with wordBuf := st.wordBuf ++ [c] }

/-- Final flush of go-wordwrap's WrapString: a pending word is always
written (with its leading spaces); trailing spaces alone are written only
if they still fit on the current line. -/
def wrapFinish (lim : Nat) (st : WrapState) : List Char :=
  if st.wordBuf = [] then
    if st.current + st.spaceBuf.length ≤ lim then st.buf ++ st.spaceBuf else st.buf
  else
    st.buf ++ st.spaceBuf ++ st.wordBuf

/-- Wrapping a rune sequence: fold the loop body over the input starting
from empty buffers, then flush. -/
def wrapChars (lim : Nat) (s : List Char) : List Char :=
  wrapFinish lim (s.foldl (wrapStep lim) ⟨[], 0, [], []⟩)

/-- WrapString of the go-wordwrap library (mitchellh/go-wordwrap), as
called by src/main.go:146 and 164.  Modelled from the library source,
which is a dependency outside this repository's files. -/
def WrapString (s : String) (lim : Nat) : String :=
  ⟨wrapChars lim s.data⟩

/-- Lines of a character sequence, splitting at every newline and keeping
empty segments, as a terminal renders them. -/
def linesOf : List Char → List (List Char)
  | [] => [[]]
  | c :: rest =>
    if c = '\n' then [] :: linesOf rest
    else (c :: (linesOf rest).headD []) :: (linesOf rest).tail

/-- Inverse of `linesOf`: join line contents with single newlines. -/
def joinLines : List (List Char) → List Char
  | [] => []
  | [x] => x
  | x :: xs => x ++ '\n' :: joinLines xs

/-- Length of the longest run of word characters (characters that are
neither a newline nor a breakable space), tracked with the running run
length `cur` and the best already-finished run `best`. -/
def maxRunAux : Nat → Nat → List Char → Nat
  | cur, best, [] => max cur best
  | cur, best, c :: rest =>
    if c = '\n' ∨ isBreakSpace c then maxRunAux 0 (max cur best) rest
    else maxRunAux (cur + 1) best rest

/-- Longest word run of an input, the quantity that governs whether the
wrapper can respect its width limit. -/
def maxWordRun (s : List Char) : Nat := maxRunAux 0 0 s

/-- Loop invariant of the wrapper when every word run of the input is
shorter than the limit: the output buffer splits into newline-free lines
whose completed part all respects the limit, the running line length is
`current` and within the limit, the pending buffers are newline-free, and
whenever a word is pending the whole pending line still fits. -/
def WrapInv (lim : Nat) (st : WrapState) : Prop :=
  ∃ F x, st.buf = joinLines (F ++ [x]) ∧
    (∀ l ∈ F, l.length ≤ lim ∧ '\n' ∉ l) ∧
    '\n' ∉ x ∧ x.length = st.current ∧ st.current ≤ lim ∧
    '\n' ∉ st.spaceBuf ∧ '\n' ∉ st.wordBuf ∧
    (st.wordBuf ≠ [] → st.current + st.spaceBuf.length + st.wordBuf.length ≤ lim)

/-- Go conversion of a (possibly negative) int to uint, as in the
expression uint(width-25) at src/main.go:146: reduction modulo 2^64. -/
def uintOfInt (i : Int) : Nat := (i % (2 : Int) ^ 64).toNat

/-- Transcript entries joined by line breaks, the string pushed into the
messages viewport by SetContent (src/main.go:153 and 169). -/
def joinMsgs (msgs : List String) : String := String.intercalate "\n" msgs

/-- Application state of src/main.go's model struct, restricted to the
fields the claims concern.  The two viewports are abstracted to the
content string and a scrolled-to-bottom flag of the messages viewport;
the textarea is abstracted to its committed string value; the Claude
handle is opaque (`none` models the nil pointer left by a failed init). -/
structure model where
  messages : List String
  paneContent : String
  paneAtBottom : Bool
  input : String
  claudeLLM : Option Unit
  claudeInitErr : Option String
  err : Option String
deriving DecidableEq, Repr

/-- Incoming events of the Update step: the key events the switch at
src/main.go:128 distinguishes, the errMsg case, and an `other` event for
every message the switch ignores (textarea-internal edits are abstracted
into the buffer value carried by the state). -/
inductive Msg where
  | keyEnter : Msg
  | keyCtrlC : Msg
  | keyEsc : Msg
  | errMsg : String → Msg
  | other : Msg
deriving DecidableEq, Repr

/-- Observable side effects of one Update step, in program order: a
transcript append, the textarea reset, a SetContent on the messages
viewport, a GotoBottom scroll, the blocking model call (recording the
prompt and the handle it is issued with), the quit value print, and the
quit command. -/
inductive Effect where
  | appendMsg : String → Effect
  | resetInput : Effect
  | setContent : String → Effect
  | gotoBottom : Effect
  | llmCall : String → Option Unit → Effect
  | printValue : String → Effect
  | quit : Effect
deriving DecidableEq, Repr

/-- Test for the model-call effect. -/
def Effect.isCall : Effect → Bool
  | .llmCall _ _ => true
  | _ => false

/-- Rendered user line of a commit: the input is hard-wrapped to
uint(width-25) columns, prefixed with "You: ", and styled
(src/main.go:146-147); `ru` is the userStyle.Render function. -/
def userLineOf (ru : String → String) (width : Int) (input : String) : String :=
  ru ("You: " ++ WrapString input (uintOfInt (width - 25)))

/-- Rendered bot line of a commit: on call failure the fixed error text,
on success the wrapped response, both prefixed with "Claude:" and styled
(src/main.go:159-166); `rb` is the botStyle.Render function and `r` the
outcome of callClaudeLLM. -/
def botLineOf (rb : String → String) (width : Int) (r : Option String) : String :=
  match r with
  | none => rb ("Claude:" ++ "Error processing your request.")
  | some resp => rb ("Claude:" ++ WrapString resp (uintOfInt (width - 25)))

/-- Update step of src/main.go:116-181, with the two lipgloss Render
functions, the terminal width read at the top of Update, and the result
of the (single) blocking callClaudeLLM invocation passed as parameters.
Returns the updated model together with the ordered effect trace of the
step.  On Enter: append the user line, reset the textarea, push and
scroll the pane, issue the call, append the bot line, push and scroll
again.  Ctrl+C/Esc print the buffer and quit; an errMsg is stored; all
other events leave the state unchanged. -/
def Update (ru rb : String → String) (width : Int) (r : Option String)
    (m : model) (msg : Msg) : model × List Effect :=
  match msg with
  | .keyEnter =>
    let userMsg := userLineOf ru width m.input
    let msgs1 := m.messages ++ [userMsg]
    let botMsg := botLineOf rb width r
    let msgs2 := msgs1 ++ [botMsg]
    ({ m with messages := msgs2, input := "",
              paneContent := joinMsgs msgs2, paneAtBottom := true },
     [.appendMsg userMsg, .resetInput, .setContent (joinMsgs msgs1), .gotoBottom,
      .llmCall m.input m.claudeLLM, .appendMsg botMsg,
      .setContent (joinMsgs msgs2), .gotoBottom])
  | .keyCtrlC => (m, [.printValue m.input, .quit])
  | .keyEsc => (m, [.printValue m.input, .quit])
  | .errMsg e => ({ m with err := some e }, [])
  | .other => (m, [])

/-- Region sizes computed by initialModel in src/main.go:54-61: fixed
25-column sidebar, sidebar height rows-2, message pane (width-25) by
(rows-7), input area (width-25) by 5.  No dimension is clamped. -/
structure LayoutMain where
  sidebarW : Int
  sidebarH : Int
  messagesW : Int
  messagesH : Int
  inputW : Int
  inputH : Int
deriving DecidableEq, Repr

/-- Layout arithmetic of src/main.go:54-61. -/
def layoutMain (width height : Int) : LayoutMain :=
  ⟨25, height - 2, width - 25, height - 7, width - 25, 5⟩

/-- Region sizes computed by initialModel in the older variant
(src/unnamed/part_000:51-57): half-width sidebar of full height, the
remaining columns for the message pane (rows-7 high) and the input area
(5 high).  No dimension is clamped. -/
structure LayoutPart where
  sidebarW : Int
  sidebarH : Int
  messagesW : Int
  messagesH : Int
  inputW : Int
  inputH : Int
deriving DecidableEq, Repr

/-- Layout arithmetic of src/unnamed/part_000:51-57 (Go integer division
truncates; its operands here are nonnegative in every claim). -/
def layoutPart (cols rows : Int) : LayoutPart :=
  ⟨cols / 2, rows, cols - cols / 2, rows - 7, cols - cols / 2, 5⟩

/-- Textarea configuration set by initialModel at src/main.go:64-73.  The
final line re-enables newline insertion on the commit key:
input.KeyMap.InsertNewline.SetEnabled(true). -/
structure InputConfig where
  placeholder : String
  prompt : String
  charLimit : Nat
  showLineNumbers : Bool
  width : Int
  height : Int
  insertNewlineEnabled : Bool
deriving DecidableEq, Repr

/-- Input-widget configuration of src/main.go:64-73. -/
def initialInputConfig (width : Int) : InputConfig :=
  { placeholder := "Send a message..."
    prompt := "┃ "
    charLimit := 2048
    showLineNumbers := false
    width := width - 25
    height := 5
    insertNewlineEnabled := true }

/-- Initial model of src/main.go:54-108 with the outcome of the Claude
init passed as `ok`.  On failure the function returns early with a
zero-valued model carrying only claudeInitErr (src/main.go:81-83): the
handle is nil and the welcome content is never set.  `rb` is the
botStyle.Render used for the welcome line. -/
def initialModel (rb : String → String) (ok : Bool) : model :=
  if ok then
    { messages := []
      paneContent := joinMsgs
        ["Welcome to the chat room!\nType a message and press Enter to send.",
         rb "Claude has entered the chat"]
      paneAtBottom := false
      input := ""
      claudeLLM := some ()
      claudeInitErr := none
      err := none }
  else
    { messages := []
      paneContent := ""
      paneAtBottom := false
      input := ""
      claudeLLM := none
      claudeInitErr := some "failed to initialize Claude LLM"
      err := none }

/-- Session state with empty transcript, an initialized handle and the
input buffer holding "hi"; a concrete state for witnesses. -/
def mHi : model := ⟨[], "", false, "hi", some (), none, none⟩

/-- Session state with empty transcript, an initialized handle and an
empty input buffer; a concrete state for witnesses. -/
def mEmpty : model := ⟨[], "", false, "", some (), none, none⟩

/-- Pane-synchronisation checker for an effect trace: starting from the
transcript `cur`, every transcript append must be followed by a
SetContent whose payload is the new transcript joined by line breaks,
before any further append; every SetContent payload must equal the
transcript current at that point. -/
def paneSync (cur : List String) (pending : Bool) : List Effect → Bool
  | [] => !pending
  | .appendMsg s :: rest => !pending && paneSync (cur ++ [s]) true rest
  | .setContent s :: rest => (s == joinMsgs cur) && paneSync cur false rest
  | _ :: rest => paneSync cur pending rest

example : WrapString "ab" 1 = "ab" := rfl
example : WrapString "ab cd" 3 = "ab\ncd" := rfl
example : WrapString " abc" 3 = " abc" := rfl
example : maxWordRun "ab cd".data = 2 := rfl

theorem linesOf_ne_nil (l : List Char) : linesOf l ≠ [] := by
  cases l with
  | nil => simp [linesOf]
  | cons c rest => by_cases hc : c = '\n' <;> simp [linesOf, hc]

theorem linesOf_no_newline {x : List Char} (hx : '\n' ∉ x) : linesOf x = [x] := by
  induction x with
  | nil => rfl
  | cons c rest ih =>
    have hc : c ≠ '\n' := by intro h; exact hx (h ▸ List.mem_cons_self c rest)
    have hrest : '\n' ∉ rest := fun h => hx (List.mem_cons_of_mem c h)
    simp [linesOf, hc, ih hrest]

theorem linesOf_append_left {x : List Char} (hx : '\n' ∉ x) (z : List Char) :
    linesOf (x ++ z) = (x ++ (linesOf z).headD []) :: (linesOf z).tail := by
  induction x with
  | nil =>
    rcases hl : linesOf z with _ | ⟨a, as⟩
    · exact absurd hl (linesOf_ne_nil z)
    · simpa using hl
  | cons c rest ih =>
    have hc : c ≠ '\n' := by intro h; exact hx (h ▸ List.mem_cons_self c rest)
    have hrest : '\n' ∉ rest := fun h => hx (List.mem_cons_of_mem c h)
    simp [linesOf, hc, ih hrest]

theorem joinLines_cons {xs : List (List Char)} (h : xs ≠ []) (x : List Char) :
    joinLines (x :: xs) = x ++ '\n' :: joinLines xs := by
  cases xs with
  | nil => exact absurd rfl h
  | cons y ys => rfl

theorem joinLines_append_last (F : List (List Char)) (x w : List Char) :
    joinLines (F ++ [x]) ++ w = joinLines (F ++ [x ++ w]) := by
  induction F with
  | nil => rfl
  | cons f F' ih =>
    rw [List.cons_append, List.cons_append,
      joinLines_cons (by simp) f, joinLines_cons (by simp) f,
      List.append_assoc, List.cons_append, ih]

theorem joinLines_append_newline (F : List (List Char)) (x : List Char) :
    joinLines (F ++ [x]) ++ ['\n'] = joinLines ((F ++ [x]) ++ [[]]) := by
  induction F with
  | nil =>
    show joinLines [x] ++ ['\n'] = joinLines [x, []]
    simp [joinLines]
  | cons f F' ih =>
    rw [List.cons_append, List.cons_append,
      joinLines_cons (by simp) f, joinLines_cons (by simp) f,
      List.append_assoc, List.cons_append, ih]

theorem linesOf_joinLines (L : List (List Char)) (hne : L ≠ [])
    (hnl : ∀ l ∈ L, '\n' ∉ l) : linesOf (joinLines L) = L := by
  induction L with
  | nil => exact absurd rfl hne
  | cons x xs ih =>
    cases xs with
    | nil =>
      have := linesOf_no_newline (hnl x (List.mem_cons_self x []))
      simpa [joinLines] using this
    | cons y ys =>
      have hx : '\n' ∉ x := hnl x (List.mem_cons_self _ _)
      have hrec : linesOf (joinLines (y :: ys)) = y :: ys :=
        ih (by simp) (fun l hl => hnl l (List.mem_cons_of_mem x hl))
      rw [joinLines_cons (by simp) x, linesOf_append_left hx]
      simp [linesOf, hrec]

theorem maxRunAux_ge (l : List Char) :
    ∀ cur best, max cur best ≤ maxRunAux cur best l := by
  induction l with
  | nil => intro cur best; simp [maxRunAux]
  | cons c rest ih =>
    intro cur best
    by_cases hc : c = '\n' ∨ isBreakSpace c
    · calc max cur best = max 0 (max cur best) := by omega
        _ ≤ maxRunAux 0 (max cur best) rest := ih _ _
        _ = maxRunAux cur best (c :: rest) := by simp [maxRunAux, hc]
    · calc max cur best ≤ max (cur + 1) best := by omega
        _ ≤ maxRunAux (cur + 1) best rest := ih _ _
        _ = maxRunAux cur best (c :: rest) := by simp [maxRunAux, hc]

theorem maxRunAux_mono_best (l : List Char) :
    ∀ cur b b', b ≤ b' → maxRunAux cur b l ≤ maxRunAux cur b' l := by
  induction l with
  | nil => intro cur b b' h; simp [maxRunAux]; omega
  | cons c rest ih =>
    intro cur b b' h
    by_cases hc : c = '\n' ∨ isBreakSpace c
    · simpa [maxRunAux, hc] using ih 0 (max cur b) (max cur b') (by omega)
    · simpa [maxRunAux, hc] using ih (cur + 1) b b' h

theorem wrapStep_inv (lim : Nat) (st : WrapState) (c : Char)
    (hinv : WrapInv lim st)
    (hword : c ≠ '\n' → isBreakSpace c = false → st.wordBuf.length + 1 < lim) :
    WrapInv lim (wrapStep lim st c) := by
  obtain ⟨F, x, hbuf, hF, hxnl, hxlen, hcur, hsnl, hwnl, hsum⟩ := hinv
  unfold wrapStep
  by_cases hc : c = '\n'
  · rw [if_pos hc]
    by_cases hw : st.wordBuf = []
    · rw [if_pos hw]
      by_cases hover : lim < st.current + st.spaceBuf.length
      · rw [if_pos hover]
        refine ⟨F ++ [x], [], ?_, ?_, by simp, rfl, Nat.zero_le _, by simp, ?_, ?_⟩
        · show st.buf ++ ['\n'] = joinLines ((F ++ [x]) ++ [[]])
          rw [hbuf, joinLines_append_newline]
        · intro l hl
          rcases List.mem_append.1 hl with h | h
          · exact hF l h
          · simp only [List.mem_singleton] at h
            exact h ▸ ⟨hxlen ▸ hcur, hxnl⟩
        · simpa using hwnl
        · simp [hw]
      · rw [if_neg hover]
        refine ⟨F ++ [x ++ st.spaceBuf], [], ?_, ?_, by simp, rfl, Nat.zero_le _,
          by simp, ?_, ?_⟩
        · show st.buf ++ st.spaceBuf ++ ['\n'] = joinLines ((F ++ [x ++ st.spaceBuf]) ++ [[]])
          rw [hbuf, joinLines_append_last, joinLines_append_newline]
        · intro l hl
          rcases List.mem_append.1 hl with h | h
          · exact hF l h
          · simp only [List.mem_singleton] at h
            subst h
            constructor
            · simp only [List.length_append]; omega
            · simp only [List.mem_append]
              rintro (h | h)
              · exact hxnl h
              · exact hsnl h
        · simpa using hwnl
        · simp [hw]
    · rw [if_neg hw]
      refine ⟨F ++ [x ++ st.spaceBuf ++ st.wordBuf], [], ?_, ?_, by simp, rfl,
        Nat.zero_le _, by simp, by simp, by simp⟩
      · show st.buf ++ st.spaceBuf ++ st.wordBuf ++ ['\n'] =
          joinLines ((F ++ [x ++ st.spaceBuf ++ st.wordBuf]) ++ [[]])
        rw [hbuf, joinLines_append_last, joinLines_append_last,
          joinLines_append_newline]
      · intro l hl
        rcases List.mem_append.1 hl with h | h
        · exact hF l h
        · simp only [List.mem_singleton] at h
          subst h
          constructor
          · have := hsum hw
            simp only [List.length_append]
            omega
          · simp only [List.mem_append]
            rintro ((h | h) | h)
            · exact hxnl h
            · exact hsnl h
            · exact hwnl h
  · rw [if_neg hc]
    by_cases hs : isBreakSpace c
    · rw [if_pos hs]
      by_cases hcond : st.spaceBuf = [] ∨ st.wordBuf ≠ []
      · rw [if_pos hcond]
        have hcle : st.current + st.spaceBuf.length + st.wordBuf.length ≤ lim := by
          by_cases hw : st.wordBuf = []
          · rcases hcond with hsb | hw'
            · simpa [hsb, hw] using hcur
            · exact absurd hw hw'
          · exact hsum hw
        refine ⟨F, x ++ st.spaceBuf ++ st.wordBuf, ?_, hF, ?_, ?_, ?_, ?_,
          by simp, by simp⟩
        · show st.buf ++ st.spaceBuf ++ st.wordBuf =
            joinLines (F ++ [x ++ st.spaceBuf ++ st.wordBuf])
          rw [hbuf, joinLines_append_last, joinLines_append_last]
        · simp only [List.mem_append]
          rintro ((h | h) | h)
          · exact hxnl h
          · exact hsnl h
          · exact hwnl h
        · simp only [List.length_append]; omega
        · simpa using hcle
        · simp only [List.mem_singleton]
          intro h
          exact hc h.symm
      · rw [if_neg hcond]
        push_neg at hcond
        refine ⟨F, x, hbuf, hF, hxnl, hxlen, hcur, ?_, hwnl, ?_⟩
        · simp only [List.mem_append, List.mem_singleton]
          rintro (h | h)
          · exact hsnl h
          · exact hc h.symm
        · simp [hcond.2]
    · rw [if_neg hs]
      have hlt : st.wordBuf.length + 1 < lim := hword hc (by simpa using hs)
      by_cases hbr : lim < st.current + (st.wordBuf.length + 1) + st.spaceBuf.length
          ∧ st.wordBuf.length + 1 < lim
      · rw [if_pos hbr]
        refine ⟨F ++ [x], [], ?_, ?_, by simp, rfl, Nat.zero_le _, by simp, ?_, ?_⟩
        · show st.buf ++ ['\n'] = joinLines ((F ++ [x]) ++ [[]])
          rw [hbuf, joinLines_append_newline]
        · intro l hl
          rcases List.mem_append.1 hl with h | h
          · exact hF l h
          · simp only [List.mem_singleton] at h
            exact h ▸ ⟨hxlen ▸ hcur, hxnl⟩
        · simp only [List.mem_append, List.mem_singleton]
          rintro (h | h)
          · exact hwnl h
          · exact hc h.symm
        · intro _
          simp only [List.length_append, List.length_singleton, List.length_nil]
          omega
      · rw [if_neg hbr]
        have hnb : ¬ lim < st.current + (st.wordBuf.length + 1) + st.spaceBuf.length :=
          fun h => hbr ⟨h, hlt⟩
        refine ⟨F, x, hbuf, hF, hxnl, hxlen, hcur, hsnl, ?_, ?_⟩
        · simp only [List.mem_append, List.mem_singleton]
          rintro (h | h)
          · exact hwnl h
          · exact hc h.symm
        · intro _
          simp only [List.length_append, List.length_singleton]
          omega

theorem maxRun_step (lim : Nat) (st : WrapState) (c : Char) (rem : List Char)
    (h : maxRunAux st.wordBuf.length 0 (c :: rem) < lim) :
    maxRunAux (wrapStep lim st c).wordBuf.length 0 rem < lim := by
  by_cases hc : c = '\n' ∨ isBreakSpace c
  · have h' : maxRunAux 0 st.wordBuf.length rem < lim := by
      have := h
      simp only [maxRunAux] at this
      rw [if_pos hc] at this
      simpa using this
    have hwb : (wrapStep lim st c).wordBuf = [] ∨
        ((wrapStep lim st c).wordBuf = st.wordBuf ∧ st.wordBuf = []) := by
      unfold wrapStep
      by_cases hcn : c = '\n'
      · rw [if_pos hcn]
        by_cases hw : st.wordBuf = []
        · rw [if_pos hw]
          by_cases hover : lim < st.current + st.spaceBuf.length
          · rw [if_pos hover]; right; exact ⟨rfl, hw⟩
          · rw [if_neg hover]; right; exact ⟨rfl, hw⟩
        · rw [if_neg hw]; left; rfl
      · have hs : isBreakSpace c = true := by
          rcases hc with hc' | hs
          · exact absurd hc' hcn
          · exact hs
        rw [if_neg hcn, if_pos hs]
        by_cases hcond : st.spaceBuf = [] ∨ st.wordBuf ≠ []
        · rw [if_pos hcond]; left; rfl
        · rw [if_neg hcond]
          push_neg at hcond
          right; exact ⟨rfl, hcond.2⟩
    have hz : (wrapStep lim st c).wordBuf.length = 0 := by
      rcases hwb with h0 | ⟨heq, hnil⟩
      · simp [h0]
      · simp [heq, hnil]
    have hle : maxRunAux (wrapStep lim st c).wordBuf.length 0 rem ≤
        maxRunAux 0 st.wordBuf.length rem := by
      rw [hz]
      exact maxRunAux_mono_best rem 0 0 _ (Nat.zero_le _)
    exact Nat.lt_of_le_of_lt hle h'
  · push_neg at hc
    have hs : isBreakSpace c = false := by simpa using hc.2
    have heq : maxRunAux st.wordBuf.length 0 (c :: rem) =
        maxRunAux (st.wordBuf.length + 1) 0 rem := by
      simp only [maxRunAux]
      rw [if_neg (by simp [hc.1, hs])]
    have hwb : (wrapStep lim st c).wordBuf = st.wordBuf ++ [c] := by
      unfold wrapStep
      rw [if_neg hc.1, if_neg (by simp [hs])]
      by_cases hbr : lim < st.current + (st.wordBuf.length + 1) + st.spaceBuf.length
          ∧ st.wordBuf.length + 1 < lim
      · rw [if_pos hbr]
      · rw [if_neg hbr]
    rw [hwb]
    simp only [List.length_append, List.length_singleton]
    rw [heq] at h
    exact h

theorem wrapFold_inv (lim : Nat) :
    ∀ (rem : List Char) (st : WrapState), WrapInv lim st →
      maxRunAux st.wordBuf.length 0 rem < lim →
      WrapInv lim (List.foldl (wrapStep lim) st rem) := by
  intro rem
  induction rem with
  | nil => intro st hinv _; simpa using hinv
  | cons c rem' ih =>
    intro st hinv h
    rw [List.foldl_cons]
    refine ih (wrapStep lim st c) ?_ (maxRun_step lim st c rem' h)
    refine wrapStep_inv lim st c hinv ?_
    intro hcn hsp
    have heq : maxRunAux st.wordBuf.length 0 (c :: rem') =
        maxRunAux (st.wordBuf.length + 1) 0 rem' := by
      simp only [maxRunAux]
      rw [if_neg (by simp [hcn, hsp])]
    have hge := maxRunAux_ge rem' (st.wordBuf.length + 1) 0
    rw [heq] at h
    omega

theorem lines_of_joined_le (lim : Nat) (F : List (List Char)) (x : List Char)
    (hF : ∀ l ∈ F, l.length ≤ lim ∧ '\n' ∉ l) (hx : '\n' ∉ x)
    (hxle : x.length ≤ lim) :
    ∀ l ∈ linesOf (joinLines (F ++ [x])), l.length ≤ lim := by
  rw [linesOf_joinLines (F ++ [x]) (by simp) ?nl]
  case nl =>
    intro l hl
    rcases List.mem_append.1 hl with h | h
    · exact (hF l h).2
    · simp only [List.mem_singleton] at h
      exact h ▸ hx
  intro l hl
  rcases List.mem_append.1 hl with h | h
  · exact (hF l h).1
  · simp only [List.mem_singleton] at h
    exact h ▸ hxle

/-- Conditional width bound for go-wordwrap: when every word run of the
input is strictly shorter than the limit, every output line of the
wrapper respects the limit. -/
theorem wrapChars_lines_le (lim : Nat) (s : List Char)
    (h : maxWordRun s < lim) :
    ∀ l ∈ linesOf (wrapChars lim s), l.length ≤ lim := by
  have hinv0 : WrapInv lim ⟨[], 0, [], []⟩ :=
    ⟨[], [], by simp [joinLines], by simp, by simp, rfl, Nat.zero_le _,
      by simp, by simp, by simp⟩
  have hinv := wrapFold_inv lim s ⟨[], 0, [], []⟩ hinv0 (by simpa [maxWordRun] using h)
  obtain ⟨F, x, hbuf, hF, hxnl, hxlen, hcur, hsnl, hwnl, hsum⟩ := hinv
  unfold wrapChars wrapFinish
  set st := List.foldl (wrapStep lim) ⟨[], 0, [], []⟩ s with hst
  by_cases hw : st.wordBuf = []
  · rw [if_pos hw]
    by_cases hfit : st.current + st.spaceBuf.length ≤ lim
    · rw [if_pos hfit]
      rw [hbuf, joinLines_append_last]
      refine lines_of_joined_le lim F (x ++ st.spaceBuf) hF ?_ ?_
      · simp only [List.mem_append]
        rintro (h | h)
        · exact hxnl h
        · exact hsnl h
      · simp only [List.length_append]; omega
    · rw [if_neg hfit, hbuf]
      exact lines_of_joined_le lim F x hF hxnl (hxlen ▸ hcur)
  · rw [if_neg hw]
    have hle := hsum hw
    rw [hbuf, joinLines_append_last, joinLines_append_last]
    refine lines_of_joined_le lim F (x ++ st.spaceBuf ++ st.wordBuf) hF ?_ ?_
    · simp only [List.mem_append]
      rintro ((h | h) | h)
      · exact hxnl h
      · exact hsnl h
      · exact hwnl h
    · simp only [List.length_append]; omega

/-- C1: a commit event (Enter keypress) with a non-empty input buffer
appends exactly two transcript entries in the Update step, the rendered
user line followed by the assistant-or-system line, never more and never
fewer (src/main.go:134-171). -/
theorem commit_appends_user_then_bot (ru rb : String → String) (w : Int)
    (r : Option String) (m : model) (h : m.input ≠ "") :
    (Update ru rb w r m .keyEnter).1.messages
      = m.messages ++ [userLineOf ru w m.input, botLineOf rb w r] := by
  simp [Update]

theorem commit_appends_user_then_bot_witness :
    mHi.input ≠ "" ∧
      (Update id id 80 (some "ok") mHi .keyEnter).1.messages
        = mHi.messages ++ [userLineOf id 80 mHi.input, botLineOf id 80 (some "ok")] :=
  ⟨by decide, commit_appends_user_then_bot id id 80 (some "ok") mHi (by decide)⟩

/-- C5: every commit attempts exactly one model call, issued with the
committed prompt and the current handle; on success the wrapped reply is
appended as the assistant line, on failure the fixed error text is
appended in its place, and the step returns normally either way — no
retry, never fatal (src/main.go:156-170). -/
theorem commit_exactly_one_call (ru rb : String → String) (w : Int)
    (r : Option String) (m : model) :
    (Update ru rb w r m .keyEnter).2.filter Effect.isCall
        = [.llmCall m.input m.claudeLLM] ∧
    (Update ru rb w r m .keyEnter).1.messages
      = m.messages ++ [userLineOf ru w m.input,
          match r with
          | none => rb ("Claude:" ++ "Error processing your request.")
          | some resp => rb ("Claude:" ++ WrapString resp (uintOfInt (w - 25)))] := by
  cases r <;> simp [Update, botLineOf, Effect.isCall, List.filter]

/-- C7: on a commit the effect trace of the Update step is, in order:
append the user line, reset the input, push the transcript (now holding
the user line) into the pane, scroll to bottom, and only then issue the
blocking model call, followed by the bot-line append and a second
push-and-scroll — so the user's message is rendered before the reply
arrives (src/main.go:149-158). -/
theorem user_msg_rendered_before_call (ru rb : String → String) (w : Int)
    (r : Option String) (m : model) :
    (Update ru rb w r m .keyEnter).2
      = [.appendMsg (userLineOf ru w m.input), .resetInput,
         .setContent (joinMsgs (m.messages ++ [userLineOf ru w m.input])), .gotoBottom,
         .llmCall m.input m.claudeLLM, .appendMsg (botLineOf rb w r),
         .setContent (joinMsgs (m.messages ++ [userLineOf ru w m.input, botLineOf rb w r])),
         .gotoBottom] := by
  simp [Update]

/-- C10: on every commit the input buffer is reset before the blocking
call is issued (reset at src/main.go:152, call at 158), and after the
Update step the buffer is empty whether the call succeeded or failed, so
the typed text is not recoverable on error. -/
theorem input_reset_before_call (ru rb : String → String) (w : Int)
    (r : Option String) (m : model) :
    (Update ru rb w r m .keyEnter).1.input = "" ∧
    ∃ pre mid post, (Update ru rb w r m .keyEnter).2
      = pre ++ Effect.resetInput :: (mid ++ Effect.llmCall m.input m.claudeLLM :: post) := by
  refine ⟨rfl, [.appendMsg (userLineOf ru w m.input)],
    [.setContent (joinMsgs (m.messages ++ [userLineOf ru w m.input])), .gotoBottom],
    [.appendMsg (botLineOf rb w r),
     .setContent (joinMsgs (m.messages ++ [userLineOf ru w m.input, botLineOf rb w r])),
     .gotoBottom], ?_⟩
  simp [Update]

/-- C8: across every event the Update step handles, the transcript is
only ever appended to — some (possibly empty) tail extends the previous
entries unchanged — and the effect trace keeps the pane synchronised:
each transcript append is followed, before any further append, by a
SetContent whose payload is the new transcript joined by line breaks
(src/main.go:149-170). -/
theorem transcript_append_only_pane_sync (ru rb : String → String) (w : Int)
    (r : Option String) (m : model) (msg : Msg) :
    (∃ t, (Update ru rb w r m msg).1.messages = m.messages ++ t) ∧
    paneSync m.messages false (Update ru rb w r m msg).2 = true := by
  cases msg with
  | keyEnter =>
    refine ⟨⟨[userLineOf ru w m.input, botLineOf rb w r], ?_⟩, ?_⟩
    · simp [Update]
    · simp [Update, paneSync, joinMsgs]
  | keyCtrlC => exact ⟨⟨[], by simp [Update]⟩, by simp [Update, paneSync]⟩
  | keyEsc => exact ⟨⟨[], by simp [Update]⟩, by simp [Update, paneSync]⟩
  | errMsg e => exact ⟨⟨[], by simp [Update]⟩, by simp [Update, paneSync]⟩
  | other => exact ⟨⟨[], by simp [Update]⟩, by simp [Update, paneSync]⟩

/-- C2 counterexample: a commit event with an empty input buffer is not a
no-op — from an empty transcript with empty input, the Update step still
appends messages and still issues a model call, because the Enter branch
at src/main.go:134-158 performs no emptiness check. -/
theorem empty_commit_cex :
    (Update id id 80 (some "hi") mEmpty .keyEnter).1.messages ≠ [] ∧
    (Update id id 80 (some "hi") mEmpty .keyEnter).2.filter Effect.isCall ≠ [] := by
  decide

/-- C2 amended: a commit event with an empty input buffer behaves exactly
like any other commit: the transcript still grows by two entries (the
"You: " line over the empty string and the bot line) and exactly one
model call is still issued, with the empty string as prompt. -/
theorem empty_commit_appends_and_calls (ru rb : String → String) (w : Int)
    (r : Option String) (m : model) (h : m.input = "") :
    (Update ru rb w r m .keyEnter).1.messages
      = m.messages ++ [ru ("You: " ++ WrapString "" (uintOfInt (w - 25))), botLineOf rb w r] ∧
    (Update ru rb w r m .keyEnter).2.filter Effect.isCall = [.llmCall "" m.claudeLLM] := by
  constructor
  · simp [Update, userLineOf, h]
  · simp [Update, Effect.isCall, List.filter, h]

theorem empty_commit_appends_and_calls_witness :
    mEmpty.input = "" ∧
      ((Update id id 80 none mEmpty .keyEnter).1.messages
        = mEmpty.messages ++ [id ("You: " ++ WrapString "" (uintOfInt (80 - 25))),
            botLineOf id 80 none] ∧
       (Update id id 80 none mEmpty .keyEnter).2.filter Effect.isCall
        = [.llmCall "" mEmpty.claudeLLM]) :=
  ⟨rfl, empty_commit_appends_and_calls id id 80 none mEmpty rfl⟩

/-- C3 counterexample: the layout computation of initialModel produces
dimensions below 1 at the degenerate terminal size (1, 1): the message
pane width of the src/main.go variant is 1 - 25 = -24, and in the
src/unnamed/part_000 variant the sidebar width 1/2 = 0 and the message
pane height 1 - 7 = -6 — nothing is clamped. -/
theorem layout_min_dim_cex :
    (layoutMain 1 1).messagesW < 1 ∧ (layoutPart 1 1).sidebarW < 1 ∧
    (layoutPart 1 1).messagesH < 1 := by
  decide

/-- C3 amended: the layout computation clamps nothing, so the derived
dimensions are all at least 1 only on terminals at least 26 columns wide
and 8 rows tall (for the fixed-25-column variant; the half-width variant
then also stays at least 1 in every region); below that, dimensions of 0
or negative values are produced, as at (1, 1). -/
theorem layout_dims_ge_one (w h : Int) (hw : 26 ≤ w) (hh : 8 ≤ h) :
    (1 ≤ (layoutMain w h).sidebarW ∧ 1 ≤ (layoutMain w h).sidebarH ∧
     1 ≤ (layoutMain w h).messagesW ∧ 1 ≤ (layoutMain w h).messagesH ∧
     1 ≤ (layoutMain w h).inputW ∧ 1 ≤ (layoutMain w h).inputH) ∧
    (1 ≤ (layoutPart w h).sidebarW ∧ 1 ≤ (layoutPart w h).sidebarH ∧
     1 ≤ (layoutPart w h).messagesW ∧ 1 ≤ (layoutPart w h).messagesH ∧
     1 ≤ (layoutPart w h).inputW ∧ 1 ≤ (layoutPart w h).inputH) := by
  simp only [layoutMain, layoutPart]
  refine ⟨⟨by omega, by omega, by omega, by omega, by omega, by omega⟩,
    ⟨by omega, by omega, by omega, by omega, by omega, by omega⟩⟩

theorem layout_dims_ge_one_witness :
    (26 ≤ (26 : Int)) ∧ (8 ≤ (8 : Int)) ∧
    ((1 ≤ (layoutMain 26 8).sidebarW ∧ 1 ≤ (layoutMain 26 8).sidebarH ∧
      1 ≤ (layoutMain 26 8).messagesW ∧ 1 ≤ (layoutMain 26 8).messagesH ∧
      1 ≤ (layoutMain 26 8).inputW ∧ 1 ≤ (layoutMain 26 8).inputH) ∧
     (1 ≤ (layoutPart 26 8).sidebarW ∧ 1 ≤ (layoutPart 26 8).sidebarH ∧
      1 ≤ (layoutPart 26 8).messagesW ∧ 1 ≤ (layoutPart 26 8).messagesH ∧
      1 ≤ (layoutPart 26 8).inputW ∧ 1 ≤ (layoutPart 26 8).inputH)) :=
  ⟨by decide, by decide, layout_dims_ge_one 26 8 (by decide) (by decide)⟩

/-- C4 counterexample: the wrapper does not bound line length by the
width — wrapping the two-character word "ab" at width 1 leaves one line
of length 2, because go-wordwrap never breaks inside a word. -/
theorem wrap_width_cex :
    ¬ ∀ l ∈ linesOf (wrapChars 1 "ab".data), l.length ≤ 1 := by
  decide

/-- C4 amended: for every input string and wrap width w of at least 1,
every line of the wrapped output has length at most w provided every
maximal run of non-space characters of the input is strictly shorter
than w; without that proviso a line can exceed w, since the wrapper only
breaks at whitespace and never inside a word. -/
theorem wrap_lines_le_width (s : List Char) (lim : Nat)
    (h1 : 1 ≤ lim) (h2 : maxWordRun s < lim) :
    ∀ l ∈ linesOf (wrapChars lim s), l.length ≤ lim :=
  wrapChars_lines_le lim s h2

theorem wrap_lines_le_width_witness :
    (1 ≤ 3 ∧ maxWordRun "ab cd".data < 3) ∧ ("ab".data).length ≤ 3 :=
  ⟨⟨by decide, by decide⟩,
    wrap_lines_le_width "ab cd".data 3 (by decide) (by decide) "ab".data (by decide)⟩

/-- C6 counterexample: the input widget configuration built by
initialModel does not disable newline insertion on the commit key — line
73 of src/main.go calls input.KeyMap.InsertNewline.SetEnabled(true), so
insertNewlineEnabled is not false. -/
theorem insert_newline_cex :
    ¬ (initialInputConfig 80).insertNewlineEnabled = false := by
  decide

/-- C6 amended: newline insertion on the commit key is explicitly
enabled in the input keymap for every terminal width (SetEnabled(true)
at src/main.go:73, likewise src/unnamed/part_000:69), so Enter reaches
the textarea as an insert-newline key as well as triggering the submit
branch of Update. -/
theorem insert_newline_enabled (w : Int) :
    (initialInputConfig w).insertNewlineEnabled = true := rfl

/-- C9 counterexample: after a failed model-handle init, interaction is
not a safe no-op — a commit event from the failure state still appends
to the transcript and still issues a backend call, carrying the nil
handle (src/main.go:81-83 leaves claudeLLM nil and Update at 156-158
calls it unconditionally). -/
theorem init_failure_cex :
    (Update id id 80 none (initialModel id false) .keyEnter).1.messages ≠ [] ∧
    (Update id id 80 none (initialModel id false) .keyEnter).2.filter Effect.isCall
      = [.llmCall "" none] := by
  decide

/-- C9 amended: when the model-handle init fails, initialModel returns a
zero-valued state carrying only claudeInitErr and a nil handle, and the
event loop still starts on it; but subsequent commit events are not
no-ops: each still appends the two transcript entries and still issues
exactly one backend call, with the nil handle, and nothing surfaces the
stored init error. -/
theorem init_failure_commit_calls (rbInit ru rb : String → String) (w : Int)
    (r : Option String) :
    (initialModel rbInit false).claudeInitErr = some "failed to initialize Claude LLM" ∧
    (initialModel rbInit false).claudeLLM = none ∧
    (initialModel rbInit false).messages = [] ∧
    (Update ru rb w r (initialModel rbInit false) .keyEnter).1.messages
      = [userLineOf ru w "", botLineOf rb w r] ∧
    (Update ru rb w r (initialModel rbInit false) .keyEnter).2.filter Effect.isCall
      = [.llmCall "" none] := by
  refine ⟨rfl, rfl, rfl, ?_, ?_⟩
  · simp [Update, initialModel]
  · simp [Update, initialModel, Effect.isCall, List.filter]
